import Mathlib

/-!
Verification of the procedural tunnel-geometry pipeline of the `fathom` game
(`src/mine_shaft.rs` and `src/polyline.rs`).

The marching-squares contour extractor is embedded over `ℚ` with the scalar
field abstracted as a function parameter (the spec treats the field as an
injected capability, and the claims about the extractor quantify over every
field).  The signed-distance field itself and the stroke tessellator use
square roots, trigonometry and `atan2`, so they are embedded over `ℝ` with
`Real.sin`, `Real.sqrt` and `Complex.arg`; `f32` arithmetic is modelled as
exact real/rational arithmetic.
-/

namespace Fathom

/-- Concatenation of the lists produced for each element, in order.  This is
the shape of every `for` loop in the source that only pushes onto a result
vector: the loop over grid cells in `marching_squares`, the loop over edges in
`polyline_to_triangles`, and the fan loops in the join/cap generators. -/
def concatMap (f : α → List β) : List α → List β
  | [] => []
  | a :: l => f a ++ concatMap f l

/-! ## Marching squares (`src/mine_shaft.rs`, lines 54-156), embedded over ℚ -/

/-- Two-dimensional point with rational coordinates (models `glam::Vec2`). -/
abbrev Q2 : Type := ℚ × ℚ

/-- Largest `i32` value; Rust's `as i32` cast from a float saturates here. -/
def i32_top : ℤ := 2147483647

/-- Smallest `i32` value; Rust's `as i32` cast from a float saturates here. -/
def i32_bot : ℤ := -2147483648

/-- Truncation toward zero, the rounding used by Rust's float-to-int casts. -/
def ratTrunc (q : ℚ) : ℤ := if 0 ≤ q then ⌊q⌋ else ⌈q⌉

/-- Saturating clamp of an integer into the `i32` range. -/
def sat_i32 (n : ℤ) : ℤ := max i32_bot (min i32_top n)

/-- Model of `(num / den) as i32` on `f32` values (`mine_shaft.rs` lines
59-60): ordinary division truncated toward zero and saturated to the `i32`
range; division by zero follows IEEE-754 (`±inf` casts to the saturation
bounds, `0.0 / 0.0 = NaN` casts to `0`). -/
def div_as_i32 (num den : ℚ) : ℤ :=
  if den = 0 then (if 0 < num then i32_top else if num < 0 then i32_bot else 0)
  else sat_i32 (ratTrunc (num / den))

/-- Case table of `resolve_case` (`mine_shaft.rs` lines 125-156): maps the
4-bit corner mask and the center-sample sign to the list of edge pairs to
connect. -/
def resolveCase (index : ℕ) (center_sign : Bool) : List (ℕ × ℕ) :=
  match index with
  | 0 => []
  | 1 => [(3, 0)]
  | 2 => [(0, 1)]
  | 3 => [(3, 1)]
  | 4 => [(1, 2)]
  | 5 => if center_sign then [(0, 1), (2, 3)] else [(3, 0), (1, 2)]
  | 6 => [(0, 2)]
  | 7 => [(3, 2)]
  | 8 => [(2, 3)]
  | 9 => [(0, 2)]
  | 10 => if center_sign then [(1, 2), (3, 0)] else [(0, 1), (2, 3)]
  | 11 => [(1, 2)]
  | 12 => [(1, 3)]
  | 13 => [(0, 1)]
  | 14 => [(3, 0)]
  | 15 => []
  | _ => []

/-- Edge interpolation closure of `marching_squares` (lines 81-88): midpoint
when the two samples are within `1e-4` of each other, otherwise the linear
interpolation toward the zero crossing. -/
def interp (a : Q2) (da : ℚ) (b : Q2) (db : ℚ) : Q2 :=
  if |da - db| < 1 / 10000 then (1 / 2 : ℚ) • (a + b)
  else a + ((0 - da) / (db - da)) • (b - a)

/-- Corner mask of a cell (lines 74-78): bit `k` is set when corner `k` has a
negative sample. -/
def cellIndex (d0 d1 d2 d3 : ℚ) : ℕ :=
  (if d0 < 0 then 1 else 0) + 2 * (if d1 < 0 then 1 else 0) +
    4 * (if d2 < 0 then 1 else 0) + 8 * (if d3 < 0 then 1 else 0)

/-- Crossing point of edge `k` of the cell with bottom-left corner `p0` and
side `res` (the `e0`-`e3` of lines 90-93); the catch-all branch mirrors the
unreachable `_ => continue` arm of lines 106 and 113. -/
def eEdge (dist : Q2 → ℚ) (p0 : Q2) (res : ℚ) : ℕ → Q2
  | 0 => interp p0 (dist p0) (p0 + (res, 0)) (dist (p0 + (res, 0)))
  | 1 => interp (p0 + (res, 0)) (dist (p0 + (res, 0))) (p0 + (res, res)) (dist (p0 + (res, res)))
  | 2 => interp (p0 + (res, res)) (dist (p0 + (res, res))) (p0 + (0, res)) (dist (p0 + (0, res)))
  | 3 => interp (p0 + (0, res)) (dist (p0 + (0, res))) p0 (dist p0)
  | _ => interp p0 (dist p0) (p0 + (res, 0)) (dist (p0 + (res, 0)))

/-- The four candidate edge-crossing points of a cell, in edge order. -/
def edgePoints (dist : Q2 → ℚ) (p0 : Q2) (res : ℚ) : List Q2 :=
  [eEdge dist p0 res 0, eEdge dist p0 res 1, eEdge dist p0 res 2, eEdge dist p0 res 3]

/-- The four corners of a cell, in the order `p0`, `p1`, `p2`, `p3` of
lines 64-67. -/
def cellCorners (p0 : Q2) (res : ℚ) : List Q2 :=
  [p0, p0 + (res, 0), p0 + (res, res), p0 + (0, res)]

/-- Vertices pushed for one grid cell (lines 69-117): sample the four
corners, build the case index, resolve it using the sign of the field at the
cell center, and emit the two looked-up crossing points of every edge pair. -/
def cellVerts (dist : Q2 → ℚ) (p0 : Q2) (res : ℚ) : List Q2 :=
  concatMap
    (fun ab => [eEdge dist p0 res ab.1, eEdge dist p0 res ab.2])
    (resolveCase
      (cellIndex (dist p0) (dist (p0 + (res, 0))) (dist (p0 + (res, res))) (dist (p0 + (0, res))))
      (decide (dist ((1 / 2 : ℚ) • (p0 + (p0 + (res, res)))) < 0)))

/-- Bottom-left corners of the grid cells visited by the double loop of
lines 57-64: `cols × rows` cells anchored at `center - (width, height) / 2`,
row by row. -/
def cellOrigins (width height res : ℚ) (center : Q2) : List Q2 :=
  concatMap
    (fun (y : ℕ) =>
      (List.range (div_as_i32 width res).toNat).map
        (fun (x : ℕ) => (((x : ℚ) * res, (y : ℚ) * res) : Q2) +
          (center - (1 / 2 : ℚ) • ((width, height) : Q2))))
    (List.range (div_as_i32 height res).toNat)

/-- `MineShaft::marching_squares` (lines 54-122) with the distance field
abstracted: the flat vertex list (two entries per segment) contributed by all
cells in loop order. -/
def marching_squares (dist : Q2 → ℚ) (width height res : ℚ) (center : Q2) : List Q2 :=
  concatMap (fun p0 => cellVerts dist p0 res) (cellOrigins width height res center)

/-! ## Real-valued 2D vectors (models `glam::Vec2` with exact reals) -/

/-- Two-dimensional point with real coordinates. -/
abbrev V : Type := ℝ × ℝ

/-- Euclidean length, `Vec2::length`. -/
noncomputable def vlen (v : V) : ℝ := Real.sqrt (v.1 ^ 2 + v.2 ^ 2)

/-- `Vec2::normalize_or_zero`: the unit vector in the direction of `v`, or the
zero vector when `v` is zero. -/
noncomputable def normalize_or_zero (v : V) : V :=
  if v = 0 then 0 else (vlen v)⁻¹ • v

/-- `perpendicular` (`polyline.rs` lines 121-123): rotate 90° CCW. -/
def perpendicular (v : V) : V := (-v.2, v.1)

/-- `Vec2::perp_dot`, the 2D cross product. -/
def perp_dot (a b : V) : ℝ := a.1 * b.2 - a.2 * b.1

/-- `Vec2::dot`. -/
def dotv (a b : V) : ℝ := a.1 * b.1 + a.2 * b.2

/-- Rust's `f32::atan2` (`perp.atan2(dot)` is the angle of the point
`(dot, perp)`), modelled by the complex argument, valued in `(-π, π]`. -/
noncomputable def atan2 (y x : ℝ) : ℝ := Complex.arg ⟨x, y⟩

/-- `signed_angle` (`polyline.rs` lines 125-127). -/
noncomputable def signed_angle (a b : V) : ℝ := atan2 (perp_dot a b) (dotv a b)

/-- `Mat2::from_angle(θ) * v`: CCW rotation by `θ`. -/
noncomputable def rot (θ : ℝ) (v : V) : V :=
  (Real.cos θ * v.1 - Real.sin θ * v.2, Real.sin θ * v.1 + Real.cos θ * v.2)

/-! ## The signed-distance field (`src/mine_shaft.rs`, lines 4-52) -/

/-- The `MineShaft` struct.  The `noise` field is the injected coherent-noise
capability (`Perlin` in the source), modelled as an arbitrary function
because the claims hold for every deterministic noise source. -/
structure MineShaft where
  width : ℝ
  height : ℝ
  shaft_radius : ℝ
  noise_scale : ℝ
  noise_amplitude : ℝ
  noise : V → ℝ

/-- `MineShaft::shaft_distance` (lines 26-28): signed distance from the
wandering vertical shaft wall of half-width `radius`. -/
noncomputable def MineShaft.shaft_distance (_ms : MineShaft) (p : V) (radius : ℝ) : ℝ :=
  |p.1 - Real.sin (p.2 * 0.01) * 35| - radius

/-- `MineShaft::secondary_shaft_distance` (lines 30-32). -/
noncomputable def MineShaft.secondary_shaft_distance (ms : MineShaft) (p : V) : ℝ :=
  ms.shaft_distance p 14

/-- `MineShaft::starting_zone_distance` (lines 35-37). -/
noncomputable def MineShaft.starting_zone_distance (_ms : MineShaft) (p : V) : ℝ :=
  vlen p - 100

/-- The `MineShaft::noise` method (lines 39-42): sample the injected noise at
the scaled point and amplify.  Renamed `noise_value` because the struct field
already carries the source's name `noise`. -/
noncomputable def MineShaft.noise_value (ms : MineShaft) (p : V) : ℝ :=
  ms.noise (ms.noise_scale • p) * ms.noise_amplitude

/-- `MineShaft::distance` (lines 45-52): union-min of the secondary clearance
corridor, the starting zone, and the noise-roughened primary corridor. -/
noncomputable def MineShaft.distance (ms : MineShaft) (p : V) : ℝ :=
  min (ms.secondary_shaft_distance p)
    (min (ms.starting_zone_distance p) (ms.shaft_distance p ms.shaft_radius + ms.noise_value p))

/-! Spec-side definitions, written from the words of the specification
(§4.1) so that the union-min decomposition claim compares the code against
an independently stated formula. -/

/-- Modelled from the spec: `centerline(y) = amplitude · sin(frequency · y)`
with the amplitude 35 and frequency 0.01 used by the code. -/
noncomputable def spec_centerline (y : ℝ) : ℝ := 35 * Real.sin (0.01 * y)

/-- Modelled from the spec: `primary(p) = |p.x − centerline(p.y)| − R`. -/
noncomputable def spec_primary (ms : MineShaft) (p : V) : ℝ :=
  |p.1 - spec_centerline p.2| - ms.shaft_radius

/-- Modelled from the spec: `secondary(p)`, the same centerline with the
smaller clearance half-width `r = 14`. -/
noncomputable def spec_secondary (p : V) : ℝ :=
  |p.1 - spec_centerline p.2| - 14

/-- Modelled from the spec: `starting(p) = |p| − r0` with `r0 = 100`. -/
noncomputable def spec_starting (p : V) : ℝ := vlen p - 100

/-- Modelled from the spec: `noise(p) = A · coherentNoise(p · s)`. -/
noncomputable def spec_noise (ms : MineShaft) (p : V) : ℝ :=
  ms.noise_amplitude * ms.noise (ms.noise_scale • p)

/-! ## Stroke tessellation (`src/polyline.rs`) -/

/-- The quad of one stroke segment (`polyline.rs` lines 60-72 and the
identical lines 14-26): direction, perpendicular normal, the four corners,
and the two triangles `(a, b, c)` and `(c, b, d)` as six vertices. -/
noncomputable def quad_verts (p0 p1 : V) (half_width : ℝ) : List V :=
  let normal := perpendicular (normalize_or_zero (p1 - p0))
  let a := p0 + half_width • normal
  let b := p0 - half_width • normal
  let c := p1 + half_width • normal
  let d := p1 - half_width • normal
  [a, b, c, c, b, d]

/-- `lines_to_triangles` (`polyline.rs` lines 5-30): the `.tuples()` iterator
consumes the points as disjoint consecutive pairs, so the embedding recurses
two points at a time; a trailing unpaired point matches neither arm's head
pattern and produces nothing. -/
noncomputable def linesAux (half_width : ℝ) : List V → List V
  | p0 :: p1 :: rest => quad_verts p0 p1 half_width ++ linesAux half_width rest
  | _ => []

/-- `lines_to_triangles` entry point with its `len < 2` early return. -/
noncomputable def lines_to_triangles (points : List V) (width : ℝ) : List V :=
  if points.length < 2 then [] else linesAux (width / 2) points

/-- The consecutive disjoint pairs `(p0, p1), (p2, p3), …` of a list; an
independent restatement of the `Itertools::tuples` contract used to
characterise `lines_to_triangles`. -/
def disjointPairs : List α → List (α × α)
  | a :: b :: rest => (a, b) :: disjointPairs rest
  | _ => []

/-- The sweep angle computed by `generate_round_join` (`polyline.rs` lines
147-161): turn direction from the sign of `perp_dot`, outward start/end arc
vectors, signed angle between them, adjusted by a full turn so left turns
sweep non-negatively and right turns non-positively. -/
noncomputable def sweep_angle (dir_in dir_out : V) : ℝ :=
  let cross := perp_dot dir_in dir_out
  let start := if 0 < cross then perpendicular dir_in else -perpendicular dir_in
  let endv := if 0 < cross then perpendicular dir_out else -perpendicular dir_out
  let angle := signed_angle start endv
  if 0 < cross then (if angle < 0 then angle + 2 * Real.pi else angle)
  else (if 0 < angle then angle - 2 * Real.pi else angle)

/-- `generate_round_join` (lines 135-172): a fan of `segments` triangles from
the join vertex, rotating the outward start vector through the sweep angle in
equal steps. -/
noncomputable def generate_round_join (center dir_in dir_out : V) (half_width : ℝ)
    (segments : ℕ) : List V :=
  let cross := perp_dot dir_in dir_out
  let start := if 0 < cross then perpendicular dir_in else -perpendicular dir_in
  let step := sweep_angle dir_in dir_out / (segments : ℝ)
  concatMap
    (fun (i : ℕ) =>
      [center, center + half_width • rot ((i : ℝ) * step) start,
        center + half_width • rot (((i : ℝ) + 1) * step) start])
    (List.range segments)

/-- `generate_round_cap` (lines 174-200): half-turn fan closing an open end;
the direction is flipped for the start cap. -/
noncomputable def generate_round_cap (center dir : V) (half_width : ℝ) (segments : ℕ)
    (at_start : Bool) : List V :=
  let d := if at_start then -dir else dir
  let normal := perpendicular d
  let start := -normal
  let step := signed_angle (-normal) normal / (segments : ℝ)
  concatMap
    (fun (i : ℕ) =>
      [center, center + half_width • rot ((i : ℝ) * step) start,
        center + half_width • rot (((i : ℝ) + 1) * step) start])
    (List.range segments)

/-- One iteration of the edge loop of `polyline_to_triangles` (lines 53-84):
the segment quad followed, when the join condition holds, by the round join
at the far endpoint (note the call on line 82 passes `dir_next` as the join's
`dir_in` and the current `dir` as its `dir_out`). -/
noncomputable def edge_item (points : List V) (n : ℕ) (half_width : ℝ) (arc : ℕ)
    (closed : Bool) (i : ℕ) : List V :=
  let p0 := points.getD i 0
  let p1 := if i < n - 1 then points.getD (i + 1) 0 else points.getD 0 0
  quad_verts p0 p1 half_width ++
    (if i < n - 2 ∨ (closed = true ∧ i < n - 1) then
      generate_round_join p1
        (normalize_or_zero ((if i < n - 2 then points.getD (i + 2) 0 else points.getD 0 0) - p1))
        (normalize_or_zero (p1 - p0)) half_width arc
    else [])

/-- `polyline_to_triangles` (lines 34-119): early return below 2 points; one
`edge_item` per edge (wrapping when closed); then either the wrap-around join
(closed) or the two end caps (open). -/
noncomputable def polyline_to_triangles (points : List V) (width : ℝ) (arc : ℕ)
    (closed : Bool) : List V :=
  if points.length < 2 then []
  else
    concatMap (edge_item points points.length (width / 2) arc closed)
      (List.range (if closed then points.length else points.length - 1)) ++
    (if closed then
      generate_round_join (points.getD 0 0)
        (normalize_or_zero (points.getD 1 0 - points.getD 0 0))
        (normalize_or_zero (points.getD 0 0 - points.getD (points.length - 1) 0))
        (width / 2) arc
    else
      generate_round_cap (points.getD 0 0)
        (normalize_or_zero (points.getD 1 0 - points.getD 0 0)) (width / 2) arc true ++
      generate_round_cap (points.getD (points.length - 1) 0)
        (normalize_or_zero (points.getD (points.length - 1) 0 - points.getD (points.length - 2) 0))
        (width / 2) arc false)

/-! ## Helper lemmas about `concatMap` -/

theorem mem_concatMap {f : α → List β} {b : β} :
    ∀ {l : List α}, b ∈ concatMap f l ↔ ∃ a ∈ l, b ∈ f a
  | [] => by simp [concatMap]
  | a :: l => by
    simp only [concatMap, List.mem_append, List.mem_cons]
    rw [mem_concatMap (l := l)]
    constructor
    · rintro (h | ⟨x, hx, hb⟩)
      · exact ⟨a, Or.inl rfl, h⟩
      · exact ⟨x, Or.inr hx, hb⟩
    · rintro ⟨x, hx | hx, hb⟩
      · exact Or.inl (hx ▸ hb)
      · exact Or.inr ⟨x, hx, hb⟩

theorem concatMap_eq_nil {f : α → List β} :
    ∀ {l : List α}, (∀ a ∈ l, f a = []) → concatMap f l = []
  | [] => fun _ => rfl
  | a :: l => fun h => by
    simp only [concatMap, List.append_eq_nil]
    exact ⟨h a (List.mem_cons_self a l), concatMap_eq_nil fun x hx => h x (List.mem_cons_of_mem a hx)⟩

theorem length_concatMap_const {f : α → List β} {k : ℕ} :
    ∀ {l : List α}, (∀ a ∈ l, (f a).length = k) → (concatMap f l).length = l.length * k
  | [] => fun _ => by simp [concatMap]
  | a :: l => fun h => by
    simp only [concatMap, List.length_append, List.length_cons]
    rw [h a (List.mem_cons_self a l),
      length_concatMap_const fun x hx => h x (List.mem_cons_of_mem a hx)]
    ring

theorem concatMap_append {f : α → List β} :
    ∀ (l₁ l₂ : List α), concatMap f (l₁ ++ l₂) = concatMap f l₁ ++ concatMap f l₂
  | [], _ => rfl
  | a :: l₁, l₂ => by
    show f a ++ concatMap f (l₁ ++ l₂) = f a ++ concatMap f l₁ ++ concatMap f l₂
    rw [concatMap_append l₁ l₂, List.append_assoc]

theorem take_len_append : ∀ (l₁ l₂ : List α), (l₁ ++ l₂).take l₁.length = l₁
  | [], _ => rfl
  | a :: l₁, l₂ => by simp only [List.cons_append, List.length_cons, List.take_succ_cons,
      take_len_append l₁ l₂]

/-! ## C2: ambiguous-case disambiguation in the case table -/

/-- C2.  For the ambiguous marching-squares cases 5 and 10 the returned edge
pairing depends on the center-sample sign — center inside gives one diagonal
pairing, center outside the other (the pairings for case 10 mirror those of
case 5) — while cases 0 and 15 always yield no edge pairs. -/
theorem c2_ambiguous_case_disambiguation :
    resolveCase 5 true = [(0, 1), (2, 3)] ∧
    resolveCase 5 false = [(3, 0), (1, 2)] ∧
    resolveCase 10 true = [(1, 2), (3, 0)] ∧
    resolveCase 10 false = [(0, 1), (2, 3)] ∧
    resolveCase 5 true ≠ resolveCase 5 false ∧
    resolveCase 10 true ≠ resolveCase 10 false ∧
    (∀ s : Bool, resolveCase 0 s = [] ∧ resolveCase 15 s = []) := by
  refine ⟨rfl, rfl, rfl, rfl, by decide, by decide, ?_⟩
  intro s
  exact ⟨rfl, rfl⟩

/-! ## C3: degenerate windows yield an empty contour -/

theorem cellVerts_res_zero (dist : Q2 → ℚ) (p0 : Q2) : cellVerts dist p0 0 = [] := by
  have hp : ∀ a b : ℚ, p0 + ((a, b) : Q2) = p0 + (0, 0) → dist (p0 + (a, b)) = dist p0 := by
    intro a b h
    rw [h]
    norm_num
  unfold cellVerts
  rw [hp 0 0 rfl]
  by_cases hd : dist p0 < 0 <;>
    simp [cellIndex, hd, resolveCase, concatMap]

theorem div_as_i32_nonpos {num den : ℚ} (hnum : 0 ≤ num) (hden : den < 0) :
    div_as_i32 num den ≤ 0 := by
  unfold div_as_i32
  rw [if_neg (ne_of_lt hden)]
  have hq : num / den ≤ 0 := div_nonpos_iff.mpr (Or.inl ⟨hnum, le_of_lt hden⟩)
  have ht : ratTrunc (num / den) ≤ 0 := by
    unfold ratTrunc
    split_ifs with h
    · have : num / den = 0 := le_antisymm hq h
      simp [this]
    · exact Int.ceil_le.mpr (by exact_mod_cast hq)
  unfold sat_i32 i32_top i32_bot
  omega

/-- C3.  With a window of non-negative extent, a resolution ≤ 0 or a window
yielding zero computed cells (zero columns or zero rows) makes
`marching_squares` return the empty list rather than fail.  (At resolution
exactly 0 the i32 cast of `width/resolution` saturates, but every cell
degenerates to a single corner, so all case indices are 0 or 15 and nothing
is emitted.) -/
theorem c3_degenerate_window_empty (dist : Q2 → ℚ) (width height res : ℚ) (center : Q2)
    (hw : 0 ≤ width) (_hh : 0 ≤ height)
    (hdeg : res ≤ 0 ∨ div_as_i32 width res = 0 ∨ div_as_i32 height res = 0) :
    marching_squares dist width height res center = [] := by
  have hcols_zero : div_as_i32 width res ≤ 0 → marching_squares dist width height res center = [] := by
    intro hc
    unfold marching_squares cellOrigins
    simp only [Int.toNat_of_nonpos hc, List.range_zero, List.map_nil]
    rw [concatMap_eq_nil fun y _ => rfl]
    rfl
  rcases hdeg with hres | hcols | hrows
  · rcases lt_or_eq_of_le hres with hlt | heq
    · exact hcols_zero (div_as_i32_nonpos hw hlt)
    · subst heq
      exact concatMap_eq_nil fun p0 _ => cellVerts_res_zero dist p0
  · exact hcols_zero (le_of_eq hcols)
  · unfold marching_squares cellOrigins
    rw [hrows]
    rfl

/-- Witness for C3 at a concrete degenerate input: a 10×10 window with
resolution −1 produces no contour. -/
theorem c3_degenerate_window_empty_witness :
    (0 : ℚ) ≤ 10 ∧ (-1 : ℚ) ≤ 0 ∧
      marching_squares (fun p => p.1) 10 10 (-1) (0, 0) = [] := by
  refine ⟨by norm_num, by norm_num, ?_⟩
  exact c3_degenerate_window_empty (fun p => p.1) 10 10 (-1) (0, 0)
    (by norm_num) (by norm_num) (Or.inl (by norm_num))

/-! ## C1: union-min decomposition of the distance field -/

/-- C1.  For every point `p`, `distance(p)` equals
`min(secondary(p), min(starting(p), primary(p) + noise(p)))` where the
spec-side `primary`, `secondary`, `starting` and `noise` are stated
independently from the specification's formulas. -/
theorem c1_distance_union_min (ms : MineShaft) (p : V) :
    ms.distance p =
      min (spec_secondary p) (min (spec_starting p) (spec_primary ms p + spec_noise ms p)) := by
  have hcl : ∀ y x : ℝ, x - Real.sin (y * 0.01) * 35 = x - spec_centerline y := by
    intro y x
    rw [spec_centerline, mul_comm y (0.01 : ℝ), mul_comm (35 : ℝ)]
  unfold MineShaft.distance MineShaft.secondary_shaft_distance MineShaft.shaft_distance
    MineShaft.starting_zone_distance MineShaft.noise_value
  unfold spec_secondary spec_starting spec_primary spec_noise
  rw [hcl p.2 p.1, mul_comm (ms.noise (ms.noise_scale • p)) ms.noise_amplitude]

/-- Witness for C1 (the theorem's binders are not hypotheses, but the
instance pins the statement at a concrete configuration and point). -/
theorem c1_distance_union_min_witness :
    (MineShaft.mk 800 600 60 (1 / 80) 60 fun _ => 0).distance (3, 4) =
      min (spec_secondary (3, 4))
        (min (spec_starting (3, 4))
          (spec_primary (MineShaft.mk 800 600 60 (1 / 80) 60 fun _ => 0) (3, 4) +
            spec_noise (MineShaft.mk 800 600 60 (1 / 80) 60 fun _ => 0) (3, 4))) :=
  c1_distance_union_min (MineShaft.mk 800 600 60 (1 / 80) 60 fun _ => 0) (3, 4)

/-! ## C8: determinism / purity -/

/-- C8.  The three operations are pure functions of their inputs: any two
`MineShaft` values with identical configuration (including the injected noise
capability) give identical distances at every point, and repeated evaluations
of `marching_squares` and `polyline_to_triangles` on identical inputs give
identical outputs.  (In this embedding the Rust methods take `&self` and
mutate nothing, so they denote functions; equality of results is then exact,
which models bit-identical `f32` outputs.) -/
theorem c8_determinism (ms₁ ms₂ : MineShaft)
    (hw : ms₁.width = ms₂.width) (hh : ms₁.height = ms₂.height)
    (hr : ms₁.shaft_radius = ms₂.shaft_radius) (hs : ms₁.noise_scale = ms₂.noise_scale)
    (ha : ms₁.noise_amplitude = ms₂.noise_amplitude) (hn : ms₁.noise = ms₂.noise) :
    (∀ p : V, ms₁.distance p = ms₂.distance p) ∧
    (∀ (dist : Q2 → ℚ) (w h res : ℚ) (c : Q2),
      marching_squares dist w h res c = marching_squares dist w h res c) ∧
    (∀ (pts : List V) (w : ℝ) (arc : ℕ) (cl : Bool),
      polyline_to_triangles pts w arc cl = polyline_to_triangles pts w arc cl) := by
  obtain ⟨w₁, h₁, r₁, s₁, a₁, n₁⟩ := ms₁
  obtain ⟨w₂, h₂, r₂, s₂, a₂, n₂⟩ := ms₂
  cases hw; cases hh; cases hr; cases hs; cases ha; cases hn
  exact ⟨fun _ => rfl, fun _ _ _ _ _ => rfl, fun _ _ _ _ => rfl⟩

/-- Witness for C8: two structurally identical configurations evaluate the
distance field identically at a concrete point. -/
theorem c8_determinism_witness :
    (MineShaft.mk 800 600 60 (1 / 80) 60 fun _ => 0).distance (3, 4) =
      (MineShaft.mk 800 600 60 (1 / 80) 60 fun _ => 0).distance (3, 4) :=
  (c8_determinism (MineShaft.mk 800 600 60 (1 / 80) 60 fun _ => 0)
    (MineShaft.mk 800 600 60 (1 / 80) 60 fun _ => 0) rfl rfl rfl rfl rfl rfl).1 (3, 4)

/-! ## C4: emitted endpoints are edge interpolations -/

theorem interp_fst_eq {a b : Q2} (da db : ℚ) (h : a.1 = b.1) : (interp a da b db).1 = a.1 := by
  unfold interp
  split_ifs
  · simp only [Prod.smul_fst, Prod.fst_add, smul_eq_mul]
    rw [← h]
    ring
  · simp only [Prod.fst_add, Prod.smul_fst, Prod.fst_sub, smul_eq_mul, ← h]
    ring

theorem interp_snd_eq {a b : Q2} (da db : ℚ) (h : a.2 = b.2) : (interp a da b db).2 = a.2 := by
  unfold interp
  split_ifs
  · simp only [Prod.smul_snd, Prod.snd_add, smul_eq_mul]
    rw [← h]
    ring
  · simp only [Prod.snd_add, Prod.smul_snd, Prod.snd_sub, smul_eq_mul, ← h]
    ring

theorem interp_eq_left {a b : Q2} {da db : ℚ} (h : a ≠ b) (he : interp a da b db = a) :
    da = 0 := by
  unfold interp at he
  split_ifs at he with hm
  · exfalso
    apply h
    have h1 := congrArg Prod.fst he
    have h2 := congrArg Prod.snd he
    simp only [Prod.smul_fst, Prod.smul_snd, Prod.fst_add, Prod.snd_add, smul_eq_mul] at h1 h2
    exact Prod.ext_iff.mpr ⟨by linarith, by linarith⟩ |>.symm
  · have hd : db - da ≠ 0 := by
      intro h0
      exact hm (by rw [show da = db by linarith]; norm_num)
    have ht : (0 - da) / (db - da) = 0 := by
      have h1 := congrArg Prod.fst he
      have h2 := congrArg Prod.snd he
      simp only [Prod.fst_add, Prod.snd_add, Prod.smul_fst, Prod.smul_snd, Prod.fst_sub,
        Prod.snd_sub, smul_eq_mul] at h1 h2
      have h1' : (0 - da) / (db - da) * (b.1 - a.1) = 0 := by linarith
      have h2' : (0 - da) / (db - da) * (b.2 - a.2) = 0 := by linarith
      by_cases hab : a.1 = b.1
      · have hab2 : a.2 ≠ b.2 := fun h2c => h (Prod.ext_iff.mpr ⟨hab, h2c⟩)
        rcases mul_eq_zero.mp h2' with h' | h'
        · exact h'
        · exact absurd (by linarith) hab2
      · rcases mul_eq_zero.mp h1' with h' | h'
        · exact h'
        · exact absurd (by linarith) hab
    rcases div_eq_zero_iff.mp ht with h' | h'
    · linarith
    · exact absurd h' hd

theorem interp_eq_right {a b : Q2} {da db : ℚ} (h : a ≠ b) (he : interp a da b db = b) :
    db = 0 := by
  unfold interp at he
  split_ifs at he with hm
  · exfalso
    apply h
    have h1 := congrArg Prod.fst he
    have h2 := congrArg Prod.snd he
    simp only [Prod.smul_fst, Prod.smul_snd, Prod.fst_add, Prod.snd_add, smul_eq_mul] at h1 h2
    exact Prod.ext_iff.mpr ⟨by linarith, by linarith⟩
  · have hd : db - da ≠ 0 := by
      intro h0
      exact hm (by rw [show da = db by linarith]; norm_num)
    have ht : (0 - da) / (db - da) = 1 := by
      have h1 := congrArg Prod.fst he
      have h2 := congrArg Prod.snd he
      simp only [Prod.fst_add, Prod.snd_add, Prod.smul_fst, Prod.smul_snd, Prod.fst_sub,
        Prod.snd_sub, smul_eq_mul] at h1 h2
      have h1' : ((0 - da) / (db - da) - 1) * (b.1 - a.1) = 0 := by linear_combination h1
      have h2' : ((0 - da) / (db - da) - 1) * (b.2 - a.2) = 0 := by linear_combination h2
      by_cases hab : a.1 = b.1
      · have hab2 : a.2 ≠ b.2 := fun h2c => h (Prod.ext_iff.mpr ⟨hab, h2c⟩)
        rcases mul_eq_zero.mp h2' with h' | h'
        · linarith
        · exact absurd (by linarith) hab2
      · rcases mul_eq_zero.mp h1' with h' | h'
        · linarith
        · exact absurd (by linarith) hab
    have : (0 : ℚ) - da = db - da := by
      field_simp at ht
      linarith
    linarith

theorem eEdge_mem (dist : Q2 → ℚ) (p0 : Q2) (res : ℚ) (k : ℕ) :
    eEdge dist p0 res k ∈ edgePoints dist p0 res := by
  match k with
  | 0 => exact List.mem_cons_self _ _
  | 1 => exact List.mem_cons_of_mem _ (List.mem_cons_self _ _)
  | 2 => exact List.mem_cons_of_mem _ (List.mem_cons_of_mem _ (List.mem_cons_self _ _))
  | 3 => exact List.mem_cons_of_mem _ (List.mem_cons_of_mem _ (List.mem_cons_of_mem _
      (List.mem_cons_self _ _)))
  | n + 4 => exact List.mem_cons_self _ _

theorem eEdge_eq0 (dist : Q2 → ℚ) (p0 : Q2) (res : ℚ) :
    eEdge dist p0 res 0 = interp p0 (dist p0) (p0 + (res, 0)) (dist (p0 + (res, 0))) := rfl

theorem eEdge_eq1 (dist : Q2 → ℚ) (p0 : Q2) (res : ℚ) :
    eEdge dist p0 res 1 =
      interp (p0 + (res, 0)) (dist (p0 + (res, 0))) (p0 + (res, res)) (dist (p0 + (res, res))) := rfl

theorem eEdge_eq2 (dist : Q2 → ℚ) (p0 : Q2) (res : ℚ) :
    eEdge dist p0 res 2 =
      interp (p0 + (res, res)) (dist (p0 + (res, res))) (p0 + (0, res)) (dist (p0 + (0, res))) := rfl

theorem eEdge_eq3 (dist : Q2 → ℚ) (p0 : Q2) (res : ℚ) :
    eEdge dist p0 res 3 =
      interp (p0 + (0, res)) (dist (p0 + (0, res))) p0 (dist p0) := rfl

/-- C4 (amended).  Every endpoint emitted by `marching_squares` is one of the
four linear interpolations along the edges of the cell that produced it
(midpoint when the two samples are within `1e-4`, else
`a + ((0 - da)/(db - da)) • (b - a)`), and such an endpoint can coincide with
a raw cell corner only when the field value at that corner is exactly zero. -/
theorem c4_endpoints_are_edge_interpolations (dist : Q2 → ℚ) (w h res : ℚ) (c : Q2) (q : Q2)
    (hq : q ∈ marching_squares dist w h res c) :
    ∃ p0 ∈ cellOrigins w h res c, q ∈ edgePoints dist p0 res ∧
      ∀ x ∈ cellCorners p0 res, q = x → dist x = 0 := by
  obtain ⟨p0, hp0, hqc⟩ := mem_concatMap.1 hq
  have hqe : q ∈ edgePoints dist p0 res := by
    obtain ⟨ab, _, hq2⟩ := mem_concatMap.1 hqc
    rcases List.mem_cons.mp hq2 with h' | h'
    · exact h' ▸ eEdge_mem dist p0 res ab.1
    · rcases List.mem_cons.mp h' with h'' | h''
      · exact h'' ▸ eEdge_mem dist p0 res ab.2
      · exact absurd h'' (List.not_mem_nil q)
  refine ⟨p0, hp0, hqe, ?_⟩
  intro x hx hqx
  have hres : res ≠ 0 := by
    intro h0
    subst h0
    rw [cellVerts_res_zero] at hqc
    exact (List.not_mem_nil q) hqc
  obtain ⟨x0, y0⟩ := p0
  have hC1 : ((x0, y0) : Q2) + (res, 0) = (x0 + res, y0) := by
    rw [Prod.mk_add_mk, add_zero]
  have hC2 : ((x0, y0) : Q2) + (res, res) = (x0 + res, y0 + res) := Prod.mk_add_mk x0 res y0 res
  have hC3 : ((x0, y0) : Q2) + (0, res) = (x0, y0 + res) := by
    rw [Prod.mk_add_mk, add_zero]
  simp only [edgePoints] at hqe
  rw [eEdge_eq0, eEdge_eq1, eEdge_eq2, eEdge_eq3, hC1, hC2, hC3] at hqe
  rw [cellCorners, hC1, hC2, hC3] at hx
  have hneH : ∀ u v : ℚ, ((u, v) : Q2) ≠ (u + res, v) := by
    intro u v hc
    rw [Prod.mk.injEq] at hc
    exact hres (by linarith [hc.1])
  have hneV : ∀ u v : ℚ, ((u, v) : Q2) ≠ (u, v + res) := by
    intro u v hc
    rw [Prod.mk.injEq] at hc
    exact hres (by linarith [hc.2])
  simp only [List.mem_cons, List.not_mem_nil, or_false] at hqe hx
  rcases hqe with he | he | he | he <;> rcases hx with hxx | hxx | hxx | hxx <;> subst hxx
  · exact interp_eq_left (hneH x0 y0) (he.symm.trans hqx)
  · exact interp_eq_right (hneH x0 y0) (he.symm.trans hqx)
  · exfalso
    have hsnd : (interp ((x0, y0) : Q2) (dist (x0, y0)) ((x0 + res, y0) : Q2)
        (dist (x0 + res, y0))).2 = y0 := interp_snd_eq _ _ rfl
    rw [← he, hqx] at hsnd
    exact hres (by linarith [show y0 + res = y0 from hsnd])
  · exfalso
    have hsnd : (interp ((x0, y0) : Q2) (dist (x0, y0)) ((x0 + res, y0) : Q2)
        (dist (x0 + res, y0))).2 = y0 := interp_snd_eq _ _ rfl
    rw [← he, hqx] at hsnd
    exact hres (by linarith [show y0 + res = y0 from hsnd])
  · exfalso
    have hfst : (interp ((x0 + res, y0) : Q2) (dist (x0 + res, y0)) ((x0 + res, y0 + res) : Q2)
        (dist (x0 + res, y0 + res))).1 = x0 + res := interp_fst_eq _ _ rfl
    rw [← he, hqx] at hfst
    exact hres (by linarith [show x0 = x0 + res from hfst])
  · exact interp_eq_left (hneV (x0 + res) y0) (he.symm.trans hqx)
  · exact interp_eq_right (hneV (x0 + res) y0) (he.symm.trans hqx)
  · exfalso
    have hfst : (interp ((x0 + res, y0) : Q2) (dist (x0 + res, y0)) ((x0 + res, y0 + res) : Q2)
        (dist (x0 + res, y0 + res))).1 = x0 + res := interp_fst_eq _ _ rfl
    rw [← he, hqx] at hfst
    exact hres (by linarith [show x0 = x0 + res from hfst])
  · exfalso
    have hsnd : (interp ((x0 + res, y0 + res) : Q2) (dist (x0 + res, y0 + res))
        ((x0, y0 + res) : Q2) (dist (x0, y0 + res))).2 = y0 + res := interp_snd_eq _ _ rfl
    rw [← he, hqx] at hsnd
    exact hres (by linarith [show y0 = y0 + res from hsnd])
  · exfalso
    have hsnd : (interp ((x0 + res, y0 + res) : Q2) (dist (x0 + res, y0 + res))
        ((x0, y0 + res) : Q2) (dist (x0, y0 + res))).2 = y0 + res := interp_snd_eq _ _ rfl
    rw [← he, hqx] at hsnd
    exact hres (by linarith [show y0 = y0 + res from hsnd])
  · have hd : ((x0 + res, y0 + res) : Q2) ≠ (x0, y0 + res) := by
      intro hc
      rw [Prod.mk.injEq] at hc
      exact hres (by linarith [hc.1])
    exact interp_eq_left hd (he.symm.trans hqx)
  · have hd : ((x0 + res, y0 + res) : Q2) ≠ (x0, y0 + res) := by
      intro hc
      rw [Prod.mk.injEq] at hc
      exact hres (by linarith [hc.1])
    exact interp_eq_right hd (he.symm.trans hqx)
  · have hd : ((x0, y0 + res) : Q2) ≠ (x0, y0) := by
      intro hc
      rw [Prod.mk.injEq] at hc
      exact hres (by linarith [hc.2])
    exact interp_eq_right hd (he.symm.trans hqx)
  · exfalso
    have hfst : (interp ((x0, y0 + res) : Q2) (dist (x0, y0 + res)) ((x0, y0) : Q2)
        (dist (x0, y0))).1 = x0 := interp_fst_eq _ _ rfl
    rw [← he, hqx] at hfst
    exact hres (by linarith [show x0 + res = x0 from hfst])
  · exfalso
    have hfst : (interp ((x0, y0 + res) : Q2) (dist (x0, y0 + res)) ((x0, y0) : Q2)
        (dist (x0, y0))).1 = x0 := interp_fst_eq _ _ rfl
    rw [← he, hqx] at hfst
    exact hres (by linarith [show x0 + res = x0 from hfst])
  · have hd : ((x0, y0 + res) : Q2) ≠ (x0, y0) := by
      intro hc
      rw [Prod.mk.injEq] at hc
      exact hres (by linarith [hc.2])
    exact interp_eq_left hd (he.symm.trans hqx)

/-- Evaluation of the cell-origin list for a 1-by-1 window of resolution 1
centered at `(1/2, 1/2)`: a single cell anchored at the origin. -/
theorem cellOrigins_example_eval : cellOrigins 1 1 1 (1 / 2, 1 / 2) = [(0, 0)] := by
  have hdiv : div_as_i32 1 1 = 1 := by
    norm_num [div_as_i32, ratTrunc, sat_i32, i32_top, i32_bot]
  rw [cellOrigins, hdiv]
  simp only [show (1 : Q2) = ((1 : ℚ), (1 : ℚ)) from rfl,
    show (0 : Q2) = ((0 : ℚ), (0 : ℚ)) from rfl,
    show ((1 : ℤ)).toNat = 1 from rfl, show List.range 1 = [0] from rfl,
    List.map_cons, List.map_nil, concatMap]
  norm_num [Prod.mk_add_mk, Prod.smul_mk, Prod.mk_sub_mk, smul_eq_mul, Prod.ext_iff]

/-- Evaluation of the extractor on the concrete field `p ↦ p.y - p.x` over a
single unit cell anchored at the origin: the cell has corner samples
`d0 = 0, d1 = -1, d2 = 0, d3 = 1` (case index 2), and both emitted endpoints
land exactly on the raw corners `(0,0)` and `(1,1)` because the field
vanishes there. -/
theorem marching_example_eval :
    marching_squares (fun p => p.2 - p.1) 1 1 1 (1 / 2, 1 / 2) = [(0, 0), (1, 1)] := by
  have horig := cellOrigins_example_eval
  have hcv : cellVerts (fun p => p.2 - p.1) ((0 : ℚ), (0 : ℚ)) 1 = [(0, 0), (1, 1)] := by
    rw [cellVerts]
    norm_num [cellIndex, Prod.mk_add_mk, Prod.smul_mk, smul_eq_mul]
    rw [show resolveCase 2 false = [((0 : ℕ), (1 : ℕ))] from rfl]
    simp only [concatMap, List.append_nil, eEdge_eq0, eEdge_eq1]
    norm_num [interp, Prod.mk_add_mk, Prod.smul_mk, Prod.mk_sub_mk, smul_eq_mul, Prod.ext_iff,
      show (0 : Q2) = ((0 : ℚ), (0 : ℚ)) from rfl, show (1 : Q2) = ((1 : ℚ), (1 : ℚ)) from rfl]
  rw [marching_squares, horig]
  show cellVerts (fun p => p.2 - p.1) ((0 : ℚ), (0 : ℚ)) 1 ++ concatMap _ [] = _
  rw [hcv]
  rfl

/-- Counterexample to C4 as stated: `marching_squares` on the field
`p ↦ p.y - p.x` over one unit cell emits the endpoint `(0, 0)`, which is the
raw bottom-left corner of the (unique) cell that produced it — so a raw
corner coordinate can be emitted as an endpoint (here because the field
value at that corner is exactly 0). -/
theorem c4_counterexample_raw_corner_emitted :
    marching_squares (fun p => p.2 - p.1) 1 1 1 (1 / 2, 1 / 2) = [(0, 0), (1, 1)] ∧
    ((0, 0) : Q2) ∈ marching_squares (fun p => p.2 - p.1) 1 1 1 (1 / 2, 1 / 2) ∧
    cellOrigins 1 1 1 (1 / 2, 1 / 2) = [(0, 0)] ∧
    ((0, 0) : Q2) ∈ cellCorners (0, 0) 1 := by
  refine ⟨marching_example_eval, ?_, ?_, ?_⟩
  · rw [marching_example_eval]
    exact List.mem_cons_self _ _
  · exact cellOrigins_example_eval
  · exact List.mem_cons_self _ _

/-- Witness for the amended C4 at a concrete input: the endpoint `(0, 0)`
emitted for the field `p ↦ p.y - p.x` is an edge interpolation of its cell
and coincides with corners only where the field vanishes. -/
theorem c4_endpoints_are_edge_interpolations_witness :
    ((0, 0) : Q2) ∈ marching_squares (fun p => p.2 - p.1) 1 1 1 (1 / 2, 1 / 2) ∧
    ∃ p0 ∈ cellOrigins 1 1 1 (1 / 2, 1 / 2),
      ((0, 0) : Q2) ∈ edgePoints (fun p => p.2 - p.1) p0 1 ∧
      ∀ x ∈ cellCorners p0 1, ((0, 0) : Q2) = x → x.2 - x.1 = 0 := by
  have hm : ((0, 0) : Q2) ∈ marching_squares (fun p => p.2 - p.1) 1 1 1 (1 / 2, 1 / 2) := by
    rw [marching_example_eval]
    exact List.mem_cons_self _ _
  exact ⟨hm, c4_endpoints_are_edge_interpolations (fun p => p.2 - p.1) 1 1 1 (1 / 2, 1 / 2)
    (0, 0) hm⟩

/-! ## Lengths of the tessellator building blocks -/

theorem quad_verts_length (p0 p1 : V) (hw : ℝ) : (quad_verts p0 p1 hw).length = 6 := rfl

theorem fan_length (f : ℕ → List V) (s : ℕ) (hf : ∀ i, (f i).length = 3) :
    (concatMap f (List.range s)).length = 3 * s :=
  calc (concatMap f (List.range s)).length
      = (List.range s).length * 3 := length_concatMap_const fun a _ => hf a
    _ = 3 * s := by rw [List.length_range, mul_comm]

theorem generate_round_join_length (c din dout : V) (hw : ℝ) (s : ℕ) :
    (generate_round_join c din dout hw s).length = 3 * s := by
  simp only [generate_round_join]
  exact fan_length _ s fun i => rfl

theorem generate_round_cap_length (c d : V) (hw : ℝ) (s : ℕ) (b : Bool) :
    (generate_round_cap c d hw s b).length = 3 * s := by
  simp only [generate_round_cap]
  exact fan_length _ s fun i => rfl

theorem edge_item_length (pts : List V) (n : ℕ) (hw : ℝ) (arc : ℕ) (closed : Bool) (i : ℕ) :
    (edge_item pts n hw arc closed i).length =
      6 + (if i < n - 2 ∨ (closed = true ∧ i < n - 1) then 3 * arc else 0) := by
  by_cases hcond : i < n - 2 ∨ (closed = true ∧ i < n - 1)
  · simp only [edge_item, if_pos hcond, List.length_append, quad_verts_length,
      generate_round_join_length]
  · simp only [edge_item, if_neg hcond, List.length_append, quad_verts_length,
      List.length_nil]

/-- Open two-point polyline: one quad and two caps. -/
theorem polyline_open2_length (p q : V) (w : ℝ) (s : ℕ) :
    (polyline_to_triangles [p, q] w s false).length = 3 * (2 + 2 * s) := by
  rw [polyline_to_triangles, if_neg (by simp)]
  have hr : List.range (if (false : Bool) = true then ([p, q] : List V).length
      else ([p, q] : List V).length - 1) = [0] := rfl
  rw [hr]
  rw [if_neg (by simp : ¬((false : Bool) = true))]
  show ((edge_item [p, q] ([p, q] : List V).length (w / 2) s false 0 ++ []) ++ _).length = _
  rw [List.append_nil, List.length_append, List.length_append, edge_item_length,
    generate_round_cap_length, generate_round_cap_length]
  rw [if_neg (by simp)]
  ring

/-- Closed polyline with at least 3 points: one quad per edge and one join
per vertex. -/
theorem polyline_closed_length (pts : List V) (w : ℝ) (s : ℕ) (h3 : 3 ≤ pts.length) :
    (polyline_to_triangles pts w s true).length = 3 * (2 * pts.length + pts.length * s) := by
  obtain ⟨k, hk⟩ : ∃ k, pts.length = k + 3 := ⟨pts.length - 3, by omega⟩
  rw [polyline_to_triangles, if_neg (by omega)]
  rw [if_pos rfl, if_pos rfl]
  have hsplit : List.range pts.length = List.range (pts.length - 1) ++ [pts.length - 1] := by
    rw [show pts.length = (pts.length - 1) + 1 by omega, List.range_succ]
    congr 2
  rw [hsplit, concatMap_append, List.length_append, List.length_append]
  have hbody : (concatMap (edge_item pts pts.length (w / 2) s true)
      (List.range (pts.length - 1))).length = (pts.length - 1) * (6 + 3 * s) := by
    have h' : (concatMap (edge_item pts pts.length (w / 2) s true)
        (List.range (pts.length - 1))).length =
          (List.range (pts.length - 1)).length * (6 + 3 * s) :=
      length_concatMap_const fun i hi => by
        rw [edge_item_length, if_pos (Or.inr ⟨rfl, List.mem_range.mp hi⟩)]
    rwa [List.length_range] at h'
  rw [hbody]
  show _ + (edge_item pts pts.length (w / 2) s true (pts.length - 1) ++ []).length + _ = _
  have hlast : ¬(pts.length - 1 < pts.length - 2 ∨
      ((true : Bool) = true ∧ pts.length - 1 < pts.length - 1)) := by
    rintro (hc | ⟨-, hc⟩) <;> omega
  rw [List.append_nil, edge_item_length, if_neg hlast, generate_round_join_length]
  rw [hk, show k + 3 - 1 = k + 2 from rfl]
  ring

/-! ## C5: exact triangle counts -/

/-- C5.  For width > 0 and arcSegments ≥ 1, an open 2-point polyline
tessellates to `2 + 2·arcSegments` triangles (the flat vertex list has three
entries per triangle), and a closed polyline of `N ≥ 3` points tessellates to
`2N + N·arcSegments` triangles. -/
theorem c5_triangle_counts (p q : V) (pts : List V) (w : ℝ) (s : ℕ)
    (_hw : 0 < w) (_hs : 1 ≤ s) (hn : 3 ≤ pts.length) :
    (polyline_to_triangles [p, q] w s false).length = 3 * (2 + 2 * s) ∧
    (polyline_to_triangles pts w s true).length = 3 * (2 * pts.length + pts.length * s) :=
  ⟨polyline_open2_length p q w s, polyline_closed_length pts w s hn⟩

/-- Witness for C5 at concrete inputs: 2 points open with one arc segment,
and a 3-point closed triangle. -/
theorem c5_triangle_counts_witness :
    (0 : ℝ) < 1 ∧ 1 ≤ 1 ∧
      3 ≤ ([((0 : ℝ), (0 : ℝ)), (1, 0), (0, 1)] : List V).length ∧
      (polyline_to_triangles [((0 : ℝ), (0 : ℝ)), (1, 0)] 1 1 false).length = 3 * (2 + 2 * 1) ∧
      (polyline_to_triangles [((0 : ℝ), (0 : ℝ)), (1, 0), (0, 1)] 1 1 true).length =
        3 * (2 * 3 + 3 * 1) := by
  have h := c5_triangle_counts ((0 : ℝ), (0 : ℝ)) ((1 : ℝ), (0 : ℝ))
    [((0 : ℝ), (0 : ℝ)), (1, 0), (0, 1)] 1 1 one_pos (le_refl 1) (by simp)
  exact ⟨one_pos, le_refl 1, by simp, h.1, h.2⟩

/-! ## C6: the concrete closed-triangle scenario -/

/-- First-edge quad of the concrete scenario: direction `(14, 0)` normalizes
to `(1, 0)`, the normal is `(0, 1)`, and the two emitted triangles are
`(a, b, c)` and `(c, b, d)` with `a = (-7, -6.5)`, `b = (-7, -7.5)`,
`c = (7, -6.5)`, `d = (7, -7.5)`. -/
theorem quad_verts_first_edge_eval :
    quad_verts ((-7 : ℝ), (-7 : ℝ)) ((7 : ℝ), (-7 : ℝ)) (1 / 2) =
      [(-7, -13 / 2), (-7, -15 / 2), (7, -13 / 2), (7, -13 / 2), (-7, -15 / 2), (7, -15 / 2)] := by
  have hsub : ((7 : ℝ), (-7 : ℝ)) - ((-7 : ℝ), (-7 : ℝ)) = ((14 : ℝ), (0 : ℝ)) := by
    rw [Prod.mk_sub_mk]
    norm_num
  have hnz : (((14 : ℝ), (0 : ℝ)) : V) ≠ 0 := by
    simp [Prod.ext_iff]
  have hlen : vlen ((14 : ℝ), (0 : ℝ)) = 14 := by
    rw [vlen]
    show Real.sqrt ((14 : ℝ) ^ 2 + (0 : ℝ) ^ 2) = 14
    rw [show ((14 : ℝ) ^ 2 + (0 : ℝ) ^ 2) = 14 ^ 2 by norm_num]
    exact Real.sqrt_sq (by norm_num)
  have hnorm : normalize_or_zero ((14 : ℝ), (0 : ℝ)) = ((1 : ℝ), (0 : ℝ)) := by
    rw [normalize_or_zero, if_neg hnz, hlen, Prod.smul_mk]
    norm_num
  simp only [quad_verts, hsub, hnorm, perpendicular]
  norm_num [Prod.mk_add_mk, Prod.mk_sub_mk, Prod.smul_mk, smul_eq_mul, Prod.ext_iff]

/-- C6.  Tessellating the closed polyline `[(-7,-7), (7,-7), (0,7)]` with
width 1 and 12 arc segments produces exactly 42 triangles (126 vertices), and
the first edge's quad uses the normal `(0, 1)`: its two triangles are emitted
as the six vertices `a, b, c, c, b, d` with `a = (-7, -6.5)`,
`b = (-7, -7.5)`, `c = (7, -6.5)`, `d = (7, -7.5)`. -/
theorem c6_concrete_closed_triangle :
    (polyline_to_triangles [((-7 : ℝ), (-7 : ℝ)), (7, -7), (0, 7)] 1 12 true).length = 126 ∧
    (polyline_to_triangles [((-7 : ℝ), (-7 : ℝ)), (7, -7), (0, 7)] 1 12 true).take 6 =
      [(-7, -13 / 2), (-7, -15 / 2), (7, -13 / 2), (7, -13 / 2), (-7, -15 / 2), (7, -15 / 2)] := by
  constructor
  · have h := polyline_closed_length [((-7 : ℝ), (-7 : ℝ)), (7, -7), (0, 7)] 1 12 (by simp)
    simpa using h
  · rw [show (polyline_to_triangles [((-7 : ℝ), (-7 : ℝ)), (7, -7), (0, 7)] 1 12 true).take 6 =
        quad_verts ((-7 : ℝ), (-7 : ℝ)) ((7 : ℝ), (-7 : ℝ)) (1 / 2) from rfl]
    exact quad_verts_first_edge_eval

/-! ## C9: totality on degenerate polyline inputs -/

/-- Coincident endpoints: the direction normalizes to the zero vector, so all
four quad corners collapse onto the (single) endpoint and the two emitted
triangles are degenerate. -/
theorem quad_verts_degenerate (p : V) (hw : ℝ) : quad_verts p p hw = [p, p, p, p, p, p] := by
  have h0 : normalize_or_zero (0 : V) = 0 := by rw [normalize_or_zero, if_pos rfl]
  have hperp : perpendicular (0 : V) = 0 := by
    simp [perpendicular, Prod.ext_iff]
  simp only [quad_verts, sub_self, h0, hperp, smul_zero, add_zero, sub_zero]

/-- C9.  `polyline_to_triangles` is total: fewer than 2 points returns the
empty list rather than failing, and a pair of coincident adjacent points
silently produces a zero-area quad whose four corners all collapse onto the
duplicated point (shown both for the emitted quad in general and for the
first six vertices of a concrete run on a doubled point). -/
theorem c9_polyline_totality :
    (∀ (pts : List V) (w : ℝ) (s : ℕ) (cl : Bool), pts.length < 2 →
      polyline_to_triangles pts w s cl = []) ∧
    (∀ (p : V) (hw : ℝ), quad_verts p p hw = [p, p, p, p, p, p]) ∧
    (polyline_to_triangles [((0 : ℝ), (0 : ℝ)), ((0 : ℝ), (0 : ℝ))] 1 1 false).take 6 =
      [((0 : ℝ), (0 : ℝ)), (0, 0), (0, 0), (0, 0), (0, 0), (0, 0)] := by
  refine ⟨?_, fun p hw => quad_verts_degenerate p hw, ?_⟩
  · intro pts w s cl h
    rw [polyline_to_triangles, if_pos h]
  · rw [show (polyline_to_triangles [((0 : ℝ), (0 : ℝ)), ((0 : ℝ), (0 : ℝ))] 1 1 false).take 6 =
        quad_verts ((0 : ℝ), (0 : ℝ)) ((0 : ℝ), (0 : ℝ)) (1 / 2) from rfl]
    exact quad_verts_degenerate _ _

/-- Witness for C9: the empty list is below the 2-point threshold and maps to
the empty output, and a concrete coincident pair yields the collapsed quad. -/
theorem c9_polyline_totality_witness :
    ([] : List V).length < 2 ∧ polyline_to_triangles ([] : List V) 1 1 false = [] ∧
    quad_verts ((2 : ℝ), (3 : ℝ)) ((2 : ℝ), (3 : ℝ)) 5 =
      [(2, 3), (2, 3), (2, 3), (2, 3), (2, 3), (2, 3)] := by
  have h := c9_polyline_totality
  exact ⟨by simp, h.1 [] 1 1 false (by simp), h.2.1 (2, 3) 5⟩

/-! ## C10: `lines_to_triangles` consumes disjoint pairs -/

theorem linesAux_eq_pairs (hw : ℝ) : ∀ l : List V,
    linesAux hw l = concatMap (fun pr : V × V => quad_verts pr.1 pr.2 hw) (disjointPairs l)
  | [] => rfl
  | [_] => rfl
  | p0 :: p1 :: rest => by
    show quad_verts p0 p1 hw ++ linesAux hw rest =
      quad_verts p0 p1 hw ++
        concatMap (fun pr : V × V => quad_verts pr.1 pr.2 hw) (disjointPairs rest)
    rw [linesAux_eq_pairs hw rest]

theorem disjointPairs_length : ∀ l : List α, (disjointPairs l).length = l.length / 2
  | [] => by
    show (0 : ℕ) = 0 / 2
    omega
  | [_] => by
    show (0 : ℕ) = 1 / 2
    omega
  | a :: b :: rest => by
    show (disjointPairs rest).length + 1 = (rest.length + 1 + 1) / 2
    rw [disjointPairs_length rest]
    omega

theorem disjointPairs_dropLast_of_odd : ∀ l : List α, l.length % 2 = 1 →
    disjointPairs l = disjointPairs l.dropLast
  | [], h => by simp at h
  | [_], _ => rfl
  | [a, b], h => by simp at h
  | a :: b :: c :: rest, h => by
    show (a, b) :: disjointPairs (c :: rest) = (a, b) :: disjointPairs ((c :: rest).dropLast)
    rw [disjointPairs_dropLast_of_odd (c :: rest)
      (by simp only [List.length_cons] at h ⊢; omega)]

/-- C10.  `lines_to_triangles` consumes its input as disjoint consecutive
pairs `(p0, p1), (p2, p3), …` — not as overlapping polyline edges — emitting
one quad (6 vertices, 2 triangles) per pair, so the output length is exactly
`6 · ⌊n/2⌋` and a trailing unpaired point of an odd-length list is silently
ignored. -/
theorem c10_lines_consume_disjoint_pairs (pts : List V) (w : ℝ) :
    lines_to_triangles pts w =
      concatMap (fun pr : V × V => quad_verts pr.1 pr.2 (w / 2)) (disjointPairs pts) ∧
    (lines_to_triangles pts w).length = 6 * (pts.length / 2) ∧
    (pts.length % 2 = 1 → lines_to_triangles pts w = lines_to_triangles pts.dropLast w) := by
  have heq : ∀ l : List V, lines_to_triangles l w =
      concatMap (fun pr : V × V => quad_verts pr.1 pr.2 (w / 2)) (disjointPairs l) := by
    intro l
    rw [lines_to_triangles]
    split_ifs with hlt
    · match l, hlt with
      | [], _ => rfl
      | [_], _ => rfl
      | _ :: _ :: _, h => simp only [List.length_cons] at h; omega
    · exact linesAux_eq_pairs (w / 2) l
  refine ⟨heq pts, ?_, ?_⟩
  · rw [heq pts]
    have h' : (concatMap (fun pr : V × V => quad_verts pr.1 pr.2 (w / 2))
        (disjointPairs pts)).length = (disjointPairs pts).length * 6 :=
      length_concatMap_const fun pr _ => rfl
    rw [h', disjointPairs_length]
    ring
  · intro hodd
    rw [heq pts, heq pts.dropLast, disjointPairs_dropLast_of_odd pts hodd]

/-- Witness for C10 at a concrete odd-length input: the third point is
ignored and the output is one quad of 6 vertices. -/
theorem c10_lines_consume_disjoint_pairs_witness :
    ([((5 : ℝ), (0 : ℝ)), (6, 0), (9, 9)] : List V).length % 2 = 1 ∧
    lines_to_triangles [((5 : ℝ), (0 : ℝ)), (6, 0), (9, 9)] 2 =
      lines_to_triangles ([((5 : ℝ), (0 : ℝ)), (6, 0), (9, 9)] : List V).dropLast 2 ∧
    (lines_to_triangles [((5 : ℝ), (0 : ℝ)), (6, 0), (9, 9)] 2).length =
      6 * (([((5 : ℝ), (0 : ℝ)), (6, 0), (9, 9)] : List V).length / 2) := by
  have h := c10_lines_consume_disjoint_pairs [((5 : ℝ), (0 : ℝ)), (6, 0), (9, 9)] 2
  exact ⟨by simp, h.2.2 (by simp), h.2.1⟩

/-! ## C7: join sweep sign and magnitude -/

/-- Bounds inherited from the complex argument: any `signed_angle` lies in
`(-π, π]`. -/
theorem signed_angle_le_pi (a b : V) : signed_angle a b ≤ Real.pi :=
  Complex.arg_le_pi _

theorem neg_pi_lt_signed_angle (a b : V) : -Real.pi < signed_angle a b :=
  Complex.neg_pi_lt_arg _

/-- C7.  For unit direction vectors at a join, the sweep angle computed by
the round-join generation is non-negative on left turns
(`cross(dir_in, dir_out) > 0`), non-positive on right turns (`cross < 0`),
and its magnitude never exceeds `2π`. -/
theorem c7_sweep_sign_and_bound (din dout : V) (_h1 : vlen din = 1) (_h2 : vlen dout = 1) :
    (0 < perp_dot din dout → 0 ≤ sweep_angle din dout) ∧
    (perp_dot din dout < 0 → sweep_angle din dout ≤ 0) ∧
    |sweep_angle din dout| ≤ 2 * Real.pi := by
  have hpi := Real.pi_pos
  rw [sweep_angle]
  by_cases hc : 0 < perp_dot din dout
  · rw [if_pos hc, if_pos hc, if_pos hc]
    set A := signed_angle (perpendicular din) (perpendicular dout) with hA
    have hle : A ≤ Real.pi := signed_angle_le_pi _ _
    have hgt : -Real.pi < A := neg_pi_lt_signed_angle _ _
    by_cases hA0 : A < 0
    · rw [if_pos hA0]
      refine ⟨fun _ => by linarith, fun hneg => absurd hc (by linarith), ?_⟩
      rw [abs_le]
      constructor <;> linarith
    · rw [if_neg hA0]
      push_neg at hA0
      refine ⟨fun _ => hA0, fun hneg => absurd hc (by linarith), ?_⟩
      rw [abs_le]
      constructor <;> linarith
  · rw [if_neg hc, if_neg hc, if_neg hc]
    set A := signed_angle (-perpendicular din) (-perpendicular dout) with hA
    have hle : A ≤ Real.pi := signed_angle_le_pi _ _
    have hgt : -Real.pi < A := neg_pi_lt_signed_angle _ _
    by_cases hA0 : 0 < A
    · rw [if_pos hA0]
      refine ⟨fun hpos => absurd hpos hc, fun _ => by linarith, ?_⟩
      rw [abs_le]
      constructor <;> linarith
    · rw [if_neg hA0]
      push_neg at hA0
      refine ⟨fun hpos => absurd hpos hc, fun _ => hA0, ?_⟩
      rw [abs_le]
      constructor <;> linarith

/-- Witness for C7: the left turn from `(1, 0)` to `(0, 1)` has unit
direction vectors, positive cross product, and a sweep within bounds. -/
theorem c7_sweep_sign_and_bound_witness :
    vlen ((1 : ℝ), (0 : ℝ)) = 1 ∧ vlen ((0 : ℝ), (1 : ℝ)) = 1 ∧
    ((0 < perp_dot ((1 : ℝ), (0 : ℝ)) ((0 : ℝ), (1 : ℝ)) →
        0 ≤ sweep_angle ((1 : ℝ), (0 : ℝ)) ((0 : ℝ), (1 : ℝ))) ∧
      (perp_dot ((1 : ℝ), (0 : ℝ)) ((0 : ℝ), (1 : ℝ)) < 0 →
        sweep_angle ((1 : ℝ), (0 : ℝ)) ((0 : ℝ), (1 : ℝ)) ≤ 0) ∧
      |sweep_angle ((1 : ℝ), (0 : ℝ)) ((0 : ℝ), (1 : ℝ))| ≤ 2 * Real.pi) := by
  have h1 : vlen ((1 : ℝ), (0 : ℝ)) = 1 := by
    rw [vlen]
    show Real.sqrt ((1 : ℝ) ^ 2 + (0 : ℝ) ^ 2) = 1
    rw [show ((1 : ℝ) ^ 2 + (0 : ℝ) ^ 2) = 1 by norm_num]
    exact Real.sqrt_one
  have h2 : vlen ((0 : ℝ), (1 : ℝ)) = 1 := by
    rw [vlen]
    show Real.sqrt ((0 : ℝ) ^ 2 + (1 : ℝ) ^ 2) = 1
    rw [show ((0 : ℝ) ^ 2 + (1 : ℝ) ^ 2) = 1 by norm_num]
    exact Real.sqrt_one
  exact ⟨h1, h2, c7_sweep_sign_and_bound ((1 : ℝ), (0 : ℝ)) ((0 : ℝ), (1 : ℝ)) h1 h2⟩

end Fathom
